import Mathlib

/-!
Verification development for `env-scream-detector.js`.

Texts (log content, configuration content, variable names) are embedded as
`List Char`.  Each JavaScript regular expression from `envPatterns` is
embedded as an executable finder returning, for a given suffix of the text,
the leftmost match's capture group together with the offset just past the
match (JS `exec` advancing `lastIndex`).  The stateful `while (exec)` loops
are embedded with an explicit `lastIndex` and fuel.
-/

namespace EnvScream

/-- Character class `[A-Z_]` of the case-sensitive patterns. -/
def clsU (c : Char) : Bool :=
  (65 ≤ c.toNat && c.toNat ≤ 90) || c == '_'

/-- Character class `[A-Z_]` under the `i` flag: also matches `a`-`z`. -/
def clsCI (c : Char) : Bool :=
  (65 ≤ c.toNat && c.toNat ≤ 90) || (97 ≤ c.toNat && c.toNat ≤ 122) || c == '_'

/-- Characters matched by `.` in a JS regex without the `s` flag:
anything but a line terminator. -/
def noNl (c : Char) : Bool :=
  !(c == '\n' || c == '\r' || c.toNat == 0x2028 || c.toNat == 0x2029)

/-- Single-character comparison, case-insensitively when `ci` is true
(ASCII simple case folding, which is what the patterns exercise). -/
def chEq (ci : Bool) (a b : Char) : Bool :=
  if ci then a.toLower == b.toLower else a == b

/-- `litAt ci lit s` holds when the literal `lit` matches at the start of `s`,
case-insensitively when `ci` is true. -/
def litAt (ci : Bool) : List Char → List Char → Bool
  | [], _ => true
  | _ :: _, [] => false
  | a :: ls, b :: ts => chEq ci a b && litAt ci ls ts

/-- First character of `s` belongs to the class `cls` (and `s` is nonempty). -/
def headCls (cls : Char → Bool) : List Char → Bool
  | [] => false
  | c :: _ => cls c

/-- A finder: given the current suffix of the text, the capture of the
leftmost match and the offset just past the match. -/
abbrev Finder := List Char → Option (List Char × Nat)

/-- Finder for the shape `lit([cls]+)`, i.e. a literal followed by a greedy
capture of class characters (patterns 1, 2 and 5 of the source).  Scans for
the leftmost position where `lit` occurs followed by at least one class
character; the capture is the maximal class run after the literal. -/
def findA (lit : List Char) (cls : Char → Bool) : List Char → Option (List Char × Nat)
  | [] => none
  | c :: rest =>
    if litAt false lit (c :: rest) && headCls cls ((c :: rest).drop lit.length) then
      some (((c :: rest).drop lit.length).takeWhile cls,
            lit.length + (((c :: rest).drop lit.length).takeWhile cls).length)
    else
      match findA lit cls rest with
      | none => none
      | some (cap, d) => some (cap, d + 1)

/-- Backtracking for the shape `([cls]+)lit` (pattern 4): the greedy capture
tries lengths `k, k-1, ..., 1` until `lit` follows the captured run. -/
def bestK (lit : List Char) (s : List Char) : Nat → Option Nat
  | 0 => none
  | k + 1 => if litAt false lit (s.drop (k + 1)) then some (k + 1) else bestK lit s k

/-- Finder for the shape `([cls]+)lit`, i.e. a greedy capture of class
characters followed by a literal (pattern 4 of the source,
`/([A-Z_]+) is not defined/g`). -/
def findB (cls : Char → Bool) (lit : List Char) : List Char → Option (List Char × Nat)
  | [] => none
  | c :: rest =>
    match (if cls c then bestK lit (c :: rest) ((c :: rest).takeWhile cls).length else none) with
    | some k => some ((c :: rest).take k, k + lit.length)
    | none =>
      match findB cls lit rest with
      | none => none
      | some (cap, d) => some (cap, d + 1)

/-- Literal `Cannot read propert` of pattern 3 (19 characters,
matched case-insensitively). -/
def lit3a : List Char := "Cannot read propert".toList

/-- Literal `of undefined` of pattern 3 (12 characters). -/
def lit3b : List Char := "of undefined".toList

/-- Literal `env.` of patterns 2 and 3. -/
def lit2 : List Char := "env.".toList

/-- Literal `process.env.` of pattern 1. -/
def lit1 : List Char := "process.env.".toList

/-- Literal ` is not defined` of pattern 4. -/
def lit4 : List Char := " is not defined".toList

/-- Literal `Missing ` of pattern 5. -/
def lit5 : List Char := "Missing ".toList

/-- Pattern 3, innermost step: at distance `k` into `s3` (the text consumed
by `.*`), try `env\.([A-Z_]+)` case-insensitively; the capture must be
nonempty (`+`), mirroring the engine failing and backtracking otherwise. -/
def checkK (s3 : List Char) (k : Nat) : Option (List Char × Nat) :=
  if litAt true lit2 (s3.drop k) then
    let cap := (s3.drop (k + 4)).takeWhile clsCI
    if cap.isEmpty then none else some (cap, k + 4 + cap.length)
  else none

/-- Pattern 3, backtracking for the greedy `.*`: try `k, k-1, ..., 0`. -/
def tryK (s3 : List Char) : Nat → Option (List Char × Nat)
  | 0 => checkK s3 0
  | k + 1 =>
    match checkK s3 (k + 1) with
    | some r => some r
    | none => tryK s3 k

/-- Pattern 3, backtracking for the greedy `.+`: try `j, j-1, ..., 1`; after
the `j` characters of `.+` the literal `of undefined` must follow, then the
`.*env\.([A-Z_]+)` tail. -/
def tryJ (s2 : List Char) : Nat → Option (List Char × Nat)
  | 0 => none
  | j + 1 =>
    if litAt true lit3b (s2.drop (j + 1)) then
      match tryK (s2.drop (j + 1 + 12)) ((s2.drop (j + 1 + 12)).takeWhile noNl).length with
      | some r => some (r.1, j + 1 + 12 + r.2)
      | none => tryJ s2 j
    else tryJ s2 j

/-- Pattern 3 match attempt anchored at the start of `s`:
`Cannot read propert.+of undefined.*env\.([A-Z_]+)` with the `i` flag. -/
def p3At (s : List Char) : Option (List Char × Nat) :=
  if litAt true lit3a s then
    match tryJ (s.drop 19) ((s.drop 19).takeWhile noNl).length with
    | some r => some (r.1, 19 + r.2)
    | none => none
  else none

/-- Finder for pattern 3: leftmost anchored match. -/
def findP3 : List Char → Option (List Char × Nat)
  | [] => none
  | c :: rest =>
    match p3At (c :: rest) with
    | some r => some r
    | none =>
      match findP3 rest with
      | none => none
      | some (cap, d) => some (cap, d + 1)

/-- The five compiled patterns of the constructor, in source order. -/
def envPatterns : List Finder :=
  [findA lit1 clsU, findA lit2 clsU, findP3, findB clsU lit4, findA lit5 clsU]

/-- A detector instance: each pattern paired with its `lastIndex`. -/
abbrev Detector := List (Finder × Nat)

/-- `new EnvScreamDetector()`: every `lastIndex` starts at 0. -/
def newDetector : Detector := envPatterns.map (fun f => (f, 0))

/-- The `while ((match = pattern.exec(logContent)) !== null)` loop: `exec`
searches from `lastIndex` `i`; on a match the captures accumulate and
`lastIndex` advances past the match; on failure `exec` resets `lastIndex`
to 0 and the loop stops.  Returns the captures in match order and the final
`lastIndex`. -/
def execLoop (find : Finder) (t : List Char) : Nat → Nat → List (List Char) × Nat
  | 0, i => ([], i)
  | fuel + 1, i =>
    match find (t.drop i) with
    | none => ([], 0)
    | some (cap, d) =>
      let r := execLoop find t fuel (i + d)
      (cap :: r.1, r.2)

/-- Run one pattern's exec loop over the whole text from `lastIndex` `i`.
The fuel `t.length + 1` is enough because every match consumes at least one
character. -/
def runPat (f : Finder) (t : List Char) (i : Nat) : List (List Char) × Nat :=
  execLoop f t (t.length + 1) i

/-- `this.envPatterns.forEach(...)`: run every pattern's loop, keeping the
captures in pattern order and the updated `lastIndex` of each pattern. -/
def runAll : Detector → List Char → List (List Char) × Detector
  | [], _ => ([], [])
  | (f, i) :: ps, t =>
    let r := runPat f t i
    let rest := runAll ps t
    (r.1 ++ rest.1, (f, r.2) :: rest.2)

/-- `Set.prototype.add`: append iff not already present (insertion order). -/
def setInsert (l : List (List Char)) (x : List Char) : List (List Char) :=
  if l.contains x then l else l ++ [x]

/-- `Array.from` of the `Set` built by the given insertion sequence. -/
def fromInsertions (xs : List (List Char)) : List (List Char) :=
  xs.foldl setInsert []

/-- `String.prototype.toUpperCase`, on the ASCII range the captures use. -/
def jsUpper (l : List Char) : List Char := l.map Char.toUpper

/-- `detectScreams(logContent)`: run all pattern loops, keep the truthy
captures (`if (match[1])`), upper-case them and deduplicate with `Set`
semantics; also returns the detector with its updated `lastIndex`es. -/
def detectScreams (det : Detector) (t : List Char) : List (List Char) × Detector :=
  let r := runAll det t
  (fromInsertions ((r.1.filter (fun c => !c.isEmpty)).map jsUpper), r.2)

/-- `new EnvScreamDetector().detectScreams(t)` as used by `analyze`. -/
def detect (t : List Char) : List (List Char) :=
  (detectScreams newDetector t).1

/-- The detector variant of claim C10: the first pattern
(`/process\.env\.([A-Z_]+)/g`) removed from the pattern list. -/
def detectNoFirst (t : List Char) : List (List Char) :=
  (detectScreams ((envPatterns.drop 1).map (fun f => (f, 0))) t).1

/-- `String.prototype.split(sep)`. -/
def splitCh (sep : Char) : List Char → List (List Char)
  | [] => [[]]
  | c :: rest =>
    if c == sep then [] :: splitCh sep rest
    else
      match splitCh sep rest with
      | [] => [[c]]
      | l :: ls => (c :: l) :: ls

/-- The white-space set of `String.prototype.trim` (WhiteSpace plus
LineTerminator code points). -/
def jsWs (c : Char) : Bool :=
  c.toNat == 9 || c.toNat == 10 || c.toNat == 11 || c.toNat == 12 ||
  c.toNat == 13 || c.toNat == 32 || c.toNat == 0xA0 || c.toNat == 0x1680 ||
  (0x2000 ≤ c.toNat && c.toNat ≤ 0x200A) || c.toNat == 0x2028 ||
  c.toNat == 0x2029 || c.toNat == 0x202F || c.toNat == 0x205F ||
  c.toNat == 0x3000 || c.toNat == 0xFEFF

/-- `String.prototype.trim`. -/
def jsTrim (l : List Char) : List Char :=
  ((l.dropWhile jsWs).reverse.dropWhile jsWs).reverse

/-- The `existingVars` computation of `autopsy`:
`envContent.split('\n').filter(line => line.includes('=')).map(line =>
line.split('=')[0].trim().toUpperCase())`. -/
def parseEnvKeys (content : List Char) : List (List Char) :=
  ((splitCh '\n' content).filter (fun line => line.contains '=')).map
    (fun line => jsUpper (jsTrim ((splitCh '=' line).headD [])))

/-- `autopsy(suspects)`: the configuration file is embedded as
`Option (List Char)` (`none` when `fs.existsSync` is false).  Returns the
pair `(missing, misconfigured)`. -/
def autopsy (suspects : List (List Char)) (envFile : Option (List Char)) :
    List (List Char) × List (List Char) :=
  let existingVars := match envFile with
    | none => []
    | some content => parseEnvKeys content
  (suspects.filter (fun s => !(existingVars.contains s)),
   suspects.filter (fun s => existingVars.contains s))

/-- Observable behavior of the CLI entry: either print the usage lines and
exit with the given status, or run `analyze` on the given path. -/
inductive CliStep where
  | usageExit : List String → Nat → CliStep
  | analyze : String → CliStep
deriving DecidableEq

/-- The three usage lines printed when no path argument is given. -/
def usageLines : List String :=
  ["Usage: node env-scream-detector.js <logfile>",
   "Example: node env-scream-detector.js error.log",
   "\nPro tip: Your logs are probably screaming right now."]

/-- The CLI entry (lines 103-114 of the source): `argv` is the full
`process.argv`, whose first two entries are the interpreter and the script. -/
def cliMain (argv : List String) : CliStep :=
  if argv.length < 3 then .usageExit usageLines 1
  else .analyze (argv.getD 2 "")

/-- Modelled from the spec for comparison in claim C8: the Reference
Loader's parsing rule stated in the spec's words — split on newline, keep
the lines containing `=`, take the substring preceding the first `=`, trim
and upper-case. -/
def specRefKeys (content : List Char) : List (List Char) :=
  ((splitCh '\n' content).filter (fun line => line.contains '=')).map
    (fun line => jsUpper (jsTrim (line.takeWhile (fun c => !(c == '=')))))

/-! ## Basic lemmas -/

theorem splitCh_ne_nil (sep : Char) (l : List Char) : splitCh sep l ≠ [] := by
  cases l with
  | nil => simp [splitCh]
  | cons c rest =>
    simp only [splitCh]
    split
    · simp
    · split
      · simp
      · simp

theorem splitCh_headD (sep : Char) (l : List Char) :
    (splitCh sep l).headD [] = l.takeWhile (fun c => !(c == sep)) := by
  induction l with
  | nil => rfl
  | cons c rest ih =>
    simp only [splitCh, List.takeWhile]
    by_cases h : c == sep
    · simp [h]
    · simp only [h, if_neg, Bool.not_false]
      rcases hs : splitCh sep rest with _ | ⟨hd, tl⟩
      · exact absurd hs (splitCh_ne_nil sep rest)
      · rw [hs] at ih
        simp at ih
        simp [ih]

/-! ## Claim theorems -/

/-- C1: for every candidate sequence and every reference file state, the
classifier's two outputs form a total partition of the candidates: their
union is the candidate sequence, they are disjoint, and each preserves the
iteration order of the candidates (is a sublist of them). -/
theorem autopsy_total_partition (suspects : List (List Char))
    (envFile : Option (List Char)) (x : List Char) :
    ((x ∈ (autopsy suspects envFile).1 ∨ x ∈ (autopsy suspects envFile).2) ↔ x ∈ suspects)
    ∧ ¬(x ∈ (autopsy suspects envFile).1 ∧ x ∈ (autopsy suspects envFile).2)
    ∧ List.Sublist (autopsy suspects envFile).1 suspects
    ∧ List.Sublist (autopsy suspects envFile).2 suspects := by
  unfold autopsy
  refine ⟨?_, ?_, List.filter_sublist suspects, List.filter_sublist suspects⟩
  · constructor
    · rintro (h | h) <;> exact (List.mem_filter.mp h).1
    · intro h
      by_cases hm : x ∈ (match envFile with
          | none => ([] : List (List Char))
          | some content => parseEnvKeys content)
      · exact Or.inr (List.mem_filter.mpr ⟨h, by simp [hm]⟩)
      · exact Or.inl (List.mem_filter.mpr ⟨h, by simp [hm]⟩)
  · rintro ⟨h1, h2⟩
    have b1 := (List.mem_filter.mp h1).2
    have b2 := (List.mem_filter.mp h2).2
    simp at b1 b2
    exact b1 b2

/-- C1 witness: the partition equations at a concrete candidate pair and a
concrete configuration file. -/
theorem autopsy_total_partition_witness :
    (("API_KEY".toList ∈ (autopsy ["API_KEY".toList, "FOO".toList]
        (some "API_KEY=x".toList)).1 ∨
      "API_KEY".toList ∈ (autopsy ["API_KEY".toList, "FOO".toList]
        (some "API_KEY=x".toList)).2) ↔
      "API_KEY".toList ∈ ["API_KEY".toList, "FOO".toList])
    ∧ ¬("API_KEY".toList ∈ (autopsy ["API_KEY".toList, "FOO".toList]
        (some "API_KEY=x".toList)).1 ∧
        "API_KEY".toList ∈ (autopsy ["API_KEY".toList, "FOO".toList]
        (some "API_KEY=x".toList)).2)
    ∧ List.Sublist (autopsy ["API_KEY".toList, "FOO".toList]
        (some "API_KEY=x".toList)).1 ["API_KEY".toList, "FOO".toList]
    ∧ List.Sublist (autopsy ["API_KEY".toList, "FOO".toList]
        (some "API_KEY=x".toList)).2 ["API_KEY".toList, "FOO".toList] :=
  autopsy_total_partition ["API_KEY".toList, "FOO".toList]
    (some "API_KEY=x".toList) "API_KEY".toList

/-- C2 counterexample: with the configuration file `# NAME=value` and the
candidate `NAME`, the candidate is classified as missing, not as
misconfigured — the commented-out declaration does not make `NAME` count
as declared. -/
theorem commented_line_counterexample :
    "NAME".toList ∈ (autopsy ["NAME".toList] (some "# NAME=value".toList)).1
    ∧ "NAME".toList ∉ (autopsy ["NAME".toList] (some "# NAME=value".toList)).2 := by
  decide

/-- C2 amended: a commented-out line containing `=` is still kept as a
declaration line, but the declared key is the entire text preceding the
first `=` (trimmed and upper-cased), comment marker included: for
`# NAME=value` the declared key is `# NAME`, so the candidate `NAME` is
classified as missing, not misconfigured. -/
theorem commented_line_key_keeps_marker :
    parseEnvKeys "# NAME=value".toList = ["# NAME".toList]
    ∧ autopsy ["NAME".toList] (some "# NAME=value".toList) = (["NAME".toList], []) := by
  decide

/-- C3 counterexample: changing the casing of the variable name in the log
changes the candidate set — `process.env.api_key` yields no candidate while
`process.env.API_KEY` yields `API_KEY`, because the first, second, fourth
and fifth patterns are case-sensitive. -/
theorem case_sensitivity_counterexample :
    detect "process.env.api_key".toList = []
    ∧ detect "process.env.API_KEY".toList = ["API_KEY".toList]
    ∧ detect "process.env.api_key".toList ≠ detect "process.env.API_KEY".toList := by
  decide

/-- C3 amended: captured text is normalized to upper case on insertion, but
only the third pattern carries the `i` flag, so matching itself is
case-sensitive for the other four patterns: the case-insensitive pattern
captures `env.api_key` inside a `Cannot read property ... of undefined`
message and normalizes it to `API_KEY`, while the bare `process.env.api_key`
is not matched at all. -/
theorem case_normalization_amended :
    detect "Cannot read property X of undefined at env.api_key".toList = ["API_KEY".toList]
    ∧ detect "process.env.api_key".toList = [] := by
  decide

/-- C5: when the configuration file does not exist, `misconfigured` is
empty and `missing` is the full candidate sequence. -/
theorem autopsy_no_env_file (suspects : List (List Char)) :
    autopsy suspects none = (suspects, []) := by
  simp [autopsy]

/-- C6: on the log text `process.env.API_KEY is undefined` with no `.env`
file the candidate set is exactly `API_KEY` (in particular `UNDEFINED` is
not captured by any pattern), and classification puts `API_KEY` in
`missing` and nothing in `misconfigured`. -/
theorem scenario_api_key_no_env :
    detect "process.env.API_KEY is undefined".toList = ["API_KEY".toList]
    ∧ autopsy (detect "process.env.API_KEY is undefined".toList) none
        = (["API_KEY".toList], []) := by
  decide

/-- C8: the Reference Loader's key computation equals the spec's stated
rule — split on newline, keep lines containing `=`, take the substring
preceding the first `=`, trim it and upper-case it. -/
theorem parse_env_matches_spec_rule (content : List Char) :
    parseEnvKeys content = specRefKeys content := by
  unfold parseEnvKeys specRefKeys
  exact List.map_congr_left (fun line _ => by rw [splitCh_headD])

/-- C9: invoked with no path argument (fewer than three `process.argv`
entries), the CLI prints the usage text plus example and exits with status
1, and does not run the analysis. -/
theorem cli_no_args_usage_exit (argv : List String) (h : argv.length < 3) :
    cliMain argv = CliStep.usageExit usageLines 1
    ∧ ∀ p, cliMain argv ≠ CliStep.analyze p := by
  refine ⟨by simp [cliMain, h], fun p => ?_⟩
  simp [cliMain, h]

/-- C9 witness: the usage exit at the concrete two-entry `process.argv`. -/
theorem cli_no_args_usage_exit_witness :
    cliMain ["node", "env-scream-detector.js"] = CliStep.usageExit usageLines 1
    ∧ ∀ p, cliMain ["node", "env-scream-detector.js"] ≠ CliStep.analyze p :=
  cli_no_args_usage_exit ["node", "env-scream-detector.js"] (by decide)

/-! ## The exec loops terminate with `lastIndex` reset to 0

Every pattern's match consumes at least one character (`Bump`), so the fuel
`t.length + 1` always lets the loop reach the failing `exec` that resets
`lastIndex` to 0. -/

/-- The finder never matches in the empty suffix, and every match consumes
at least one character. -/
def Bump (find : Finder) : Prop :=
  find [] = none ∧ ∀ s cap d, find s = some (cap, d) → 1 ≤ d

theorem headCls_takeWhile_pos (cls : Char → Bool) (l : List Char)
    (h : headCls cls l = true) : 0 < (l.takeWhile cls).length := by
  cases l with
  | nil => simp [headCls] at h
  | cons c rest =>
    simp only [headCls] at h
    simp [List.takeWhile_cons, h]

theorem bump_findA (lit : List Char) (cls : Char → Bool) : Bump (findA lit cls) := by
  refine ⟨rfl, ?_⟩
  intro s cap d h
  cases s with
  | nil => simp [findA] at h
  | cons c rest =>
    rw [findA] at h
    split at h
    · rename_i hguard
      simp only [Option.some.injEq, Prod.mk.injEq] at h
      have hpos := headCls_takeWhile_pos cls ((c :: rest).drop lit.length)
        (Bool.and_elim_right hguard)
      omega
    · split at h
      · exact absurd h (by simp)
      · simp only [Option.some.injEq, Prod.mk.injEq] at h
        omega

theorem bestK_pos (lit : List Char) (s : List Char) (n k : Nat)
    (h : bestK lit s n = some k) : 1 ≤ k := by
  induction n with
  | zero => simp [bestK] at h
  | succ m ih =>
    rw [bestK] at h
    split at h
    · simp only [Option.some.injEq] at h
      omega
    · exact ih h

theorem bump_findB (cls : Char → Bool) (lit : List Char) : Bump (findB cls lit) := by
  refine ⟨rfl, ?_⟩
  intro s cap d h
  cases s with
  | nil => simp [findB] at h
  | cons c rest =>
    rw [findB] at h
    split at h
    · rename_i k hk
      have hkpos : 1 ≤ k := by
        split at hk
        · exact bestK_pos _ _ _ _ hk
        · exact absurd hk (by simp)
      simp only [Option.some.injEq, Prod.mk.injEq] at h
      omega
    · split at h
      · exact absurd h (by simp)
      · simp only [Option.some.injEq, Prod.mk.injEq] at h
        omega

theorem bump_findP3 : Bump findP3 := by
  refine ⟨rfl, ?_⟩
  intro s cap d h
  cases s with
  | nil => simp [findP3] at h
  | cons c rest =>
    rw [findP3] at h
    split at h
    · rename_i r hr
      have hr2 : r = (cap, d) := by simpa using h
      subst hr2
      rw [p3At] at hr
      split at hr
      · split at hr
        · simp only [Option.some.injEq, Prod.mk.injEq] at hr
          omega
        · exact absurd hr (by simp)
      · exact absurd hr (by simp)
    · split at h
      · exact absurd h (by simp)
      · simp only [Option.some.injEq, Prod.mk.injEq] at h
        omega

theorem bump_envPatterns : ∀ f ∈ envPatterns, Bump f := by
  intro f hf
  simp only [envPatterns, List.mem_cons, List.mem_singleton] at hf
  rcases hf with rfl | rfl | rfl | rfl | rfl | h
  · exact bump_findA lit1 clsU
  · exact bump_findA lit2 clsU
  · exact bump_findP3
  · exact bump_findB clsU lit4
  · exact bump_findA lit5 clsU
  · simp at h

theorem execLoop_resets (find : Finder) (hb : Bump find) (t : List Char) :
    ∀ fuel i, (t.drop i).length + 1 ≤ fuel → (execLoop find t fuel i).2 = 0 := by
  intro fuel
  induction fuel with
  | zero => intro i h; omega
  | succ m ih =>
    intro i h
    rw [execLoop]
    rcases hf : find (t.drop i) with _ | ⟨cap, d⟩
    · rfl
    · have hd := hb.2 _ _ _ hf
      have hne : t.drop i ≠ [] := by
        intro he
        rw [he, hb.1] at hf
        exact absurd hf (by simp)
      have hpos : 1 ≤ (t.drop i).length := List.length_pos.mpr hne
      have hlen : (t.drop (i + d)).length + 1 ≤ m := by
        rw [List.length_drop] at h hpos ⊢
        omega
      simpa using ih (i + d) hlen

theorem runPat_resets (f : Finder) (hb : Bump f) (t : List Char) (i : Nat) :
    (runPat f t i).2 = 0 := by
  apply execLoop_resets f hb
  rw [List.length_drop]
  omega

theorem runAll_resets (t : List Char) :
    ∀ det : Detector, (∀ p ∈ det, Bump p.1) →
      (runAll det t).2 = det.map (fun p => (p.1, 0)) := by
  intro det
  induction det with
  | nil => intro _; rfl
  | cons p ps ih =>
    intro hb
    rcases p with ⟨f, i⟩
    simp only [runAll, List.map_cons]
    rw [runPat_resets f (hb (f, i) (List.mem_cons_self _ _)) t i,
      ih (fun q hq => hb q (List.mem_cons_of_mem _ hq))]

theorem detectScreams_state_reset (t : List Char) :
    (detectScreams newDetector t).2 = newDetector := by
  show (runAll newDetector t).2 = newDetector
  rw [runAll_resets t newDetector]
  · simp [newDetector, List.map_map]
  · intro p hp
    simp only [newDetector, List.mem_map] at hp
    obtain ⟨f, hf, rfl⟩ := hp
    exact bump_envPatterns f hf

/-! ## Upper-case normalization -/

theorem toNat_ofNat_small (n : Nat) (h : n < 55296) : (Char.ofNat n).toNat = n := by
  have hv : n.isValidChar := Or.inl h
  simp only [Char.ofNat, hv, dite_true, Char.ofNatAux, Char.toNat]
  rfl

theorem toUpper_toUpper (c : Char) : c.toUpper.toUpper = c.toUpper := by
  have he : ∀ d : Char, d.toUpper =
      if d.toNat ≥ 97 ∧ d.toNat ≤ 122 then Char.ofNat (d.toNat - 32) else d :=
    fun d => rfl
  by_cases h : c.toNat ≥ 97 ∧ c.toNat ≤ 122
  · have h1 : c.toUpper = Char.ofNat (c.toNat - 32) := by rw [he c, if_pos h]
    rw [h1, he (Char.ofNat (c.toNat - 32)), if_neg]
    intro hcon
    rw [toNat_ofNat_small _ (by omega)] at hcon
    omega
  · have h1 : c.toUpper = c := by rw [he c, if_neg h]
    rw [h1]
    exact h1

theorem mem_foldl_setInsert (x : List Char) (xs : List (List Char)) :
    ∀ acc, x ∈ xs.foldl setInsert acc ↔ x ∈ acc ∨ x ∈ xs := by
  induction xs with
  | nil => intro acc; simp
  | cons a ys ih =>
    intro acc
    rw [List.foldl_cons, ih]
    unfold setInsert
    by_cases hc : acc.contains a = true
    · rw [if_pos hc]
      have ha : a ∈ acc := by simpa using hc
      constructor
      · rintro (h | h)
        · exact Or.inl h
        · exact Or.inr (List.mem_cons_of_mem a h)
      · rintro (h | h)
        · exact Or.inl h
        · rcases List.mem_cons.mp h with rfl | h2
          · exact Or.inl ha
          · exact Or.inr h2
    · rw [if_neg hc]
      simp only [List.mem_append, List.mem_singleton, List.mem_cons]
      tauto

theorem mem_fromInsertions (x : List Char) (xs : List (List Char)) :
    x ∈ fromInsertions xs ↔ x ∈ xs := by
  unfold fromInsertions
  rw [mem_foldl_setInsert]
  simp

/-- C7: every candidate name produced by pattern matching is entirely
upper-case — upper-casing it again leaves it unchanged, since each captured
string is upper-cased before insertion into the set. -/
theorem detect_names_upper (t : List Char) (name : List Char)
    (h : name ∈ detect t) : name.map Char.toUpper = name := by
  simp only [detect, detectScreams] at h
  rw [mem_fromInsertions] at h
  obtain ⟨cap, _, rfl⟩ := List.mem_map.mp h
  show (cap.map Char.toUpper).map Char.toUpper = cap.map Char.toUpper
  rw [List.map_map]
  exact List.map_congr_left (fun a _ => toUpper_toUpper a)

/-- C7 witness: the candidate captured from `Missing FOO` is upper-case. -/
theorem detect_names_upper_witness :
    "FOO".toList ∈ detect "Missing FOO".toList
    ∧ ("FOO".toList).map Char.toUpper = "FOO".toList :=
  ⟨by decide, detect_names_upper "Missing FOO".toList "FOO".toList (by decide)⟩

/-- C4: running pattern matching twice in succession on the same detector
instance with the same text returns the same set both times — after the
first run every pattern's `lastIndex` is back at 0, so no hidden mutable
state changes the second result. -/
theorem detect_idempotent (t : List Char) :
    (detectScreams (detectScreams newDetector t).2 t).1 = (detectScreams newDetector t).1
    ∧ (detectScreams newDetector t).2 = newDetector := by
  rw [detectScreams_state_reset t]
  exact ⟨rfl, rfl⟩

/-! ## Redundancy of the first pattern

Every capture of `/process\.env\.([A-Z_]+)/g` is also a capture of
`/env\.([A-Z_]+)/g`: an occurrence of `process.env.` followed by a class
character contains an occurrence of `env.` eight characters later followed
by the same maximal class run, and the `env.` loop never skips an
occurrence (a match of `env.` plus its capture cannot overlap the start of
another `env.` occurrence, since the capture holds no lower-case letters). -/

theorem litAt_false_iff (lit : List Char) :
    ∀ s, litAt false lit s = true ↔ ∃ v, s = lit ++ v := by
  induction lit with
  | nil => intro s; simp [litAt]
  | cons a ls ih =>
    intro s
    cases s with
    | nil => simp [litAt]
    | cons b ts =>
      have hstep : litAt false (a :: ls) (b :: ts) = ((a == b) && litAt false ls ts) := rfl
      rw [hstep, Bool.and_eq_true, beq_iff_eq, ih ts]
      constructor
      · rintro ⟨rfl, v, rfl⟩
        exact ⟨v, rfl⟩
      · rintro ⟨v, hv⟩
        rw [List.cons_append] at hv
        injection hv with h1 h2
        exact ⟨h1.symm, v, h2⟩

theorem findA_some (lit : List Char) (cls : Char → Bool) :
    ∀ s cap d, findA lit cls s = some (cap, d) →
      ∃ u v, s = u ++ lit ++ v ∧ headCls cls v = true ∧ cap = v.takeWhile cls
        ∧ d = u.length + lit.length + cap.length
        ∧ ∀ u' v', s = u' ++ lit ++ v' → headCls cls v' = true →
            u.length ≤ u'.length := by
  intro s
  induction s with
  | nil => intro cap d h; simp [findA] at h
  | cons c rest ih =>
    intro cap d h
    rw [findA] at h
    split at h
    · rename_i hg
      rw [Bool.and_eq_true] at hg
      obtain ⟨v, hv⟩ := (litAt_false_iff lit (c :: rest)).mp hg.1
      have hdrop : (c :: rest).drop lit.length = v := by
        rw [hv]; exact List.drop_left lit v
      simp only [Option.some.injEq, Prod.mk.injEq] at h
      refine ⟨[], v, by simpa using hv, ?_, ?_, ?_, ?_⟩
      · rw [← hdrop]; exact hg.2
      · rw [← h.1, hdrop]
      · rw [← h.2, ← h.1, hdrop]; simp
      · intro u' v' _ _; simp
    · rename_i hg
      split at h
      · exact absurd h (by simp)
      · rename_i cap' d' hrec
        simp only [Option.some.injEq, Prod.mk.injEq] at h
        obtain ⟨u, v, he, hcv, hcap, hd, hmin⟩ := ih cap' d' hrec
        refine ⟨c :: u, v, by rw [he]; simp [List.append_assoc], hcv,
          by rw [← h.1, hcap], ?_, ?_⟩
        · rw [← h.2, hd, ← h.1]
          simp only [List.length_cons]
          omega
        · intro u' v' he' hv'
          cases u' with
          | nil =>
            exfalso
            simp only [List.nil_append] at he'
            apply hg
            rw [Bool.and_eq_true]
            refine ⟨(litAt_false_iff lit (c :: rest)).mpr ⟨v', he'⟩, ?_⟩
            rw [he', List.drop_left]
            exact hv'
          | cons c₀ u₀ =>
            rw [List.cons_append] at he'
            injection he' with h1 h2
            have := hmin u₀ v' h2 hv'
            simp only [List.length_cons]
            omega

theorem findA_none (lit : List Char) (cls : Char → Bool) :
    ∀ s, findA lit cls s = none →
      ∀ u v, s = u ++ lit ++ v → headCls cls v = true → False := by
  intro s
  induction s with
  | nil =>
    intro _ u v he hv
    have h0 : u ++ (lit ++ v) = [] := by rw [List.append_assoc] at he; exact he.symm
    have h1 := List.append_eq_nil.mp h0
    have h2 := List.append_eq_nil.mp h1.2
    rw [h2.2] at hv
    simp [headCls] at hv
  | cons c rest ih =>
    intro h u v he hv
    rw [findA] at h
    split at h
    · exact absurd h (by simp)
    · rename_i hg
      split at h
      · rename_i hrec
        cases u with
        | nil =>
          apply hg
          simp only [List.nil_append] at he
          rw [Bool.and_eq_true]
          refine ⟨(litAt_false_iff lit (c :: rest)).mpr ⟨v, he⟩, ?_⟩
          rw [he, List.drop_left]
          exact hv
        | cons c₀ u₀ =>
          rw [List.cons_append] at he
          injection he with _ h2
          exact ih hrec u₀ v h2 hv
      · exact absurd h (by simp)

theorem execLoop_caps_sound (find : Finder) (t : List Char) :
    ∀ fuel i cap, cap ∈ (execLoop find t fuel i).1 →
      ∃ j d, find (t.drop j) = some (cap, d) := by
  intro fuel
  induction fuel with
  | zero => intro i cap h; simp [execLoop] at h
  | succ m ih =>
    intro i cap h
    rcases hf : find (t.drop i) with _ | ⟨cap₀, d⟩
    · simp [execLoop, hf] at h
    · simp only [execLoop, hf, List.mem_cons] at h
      rcases h with rfl | h
      · exact ⟨i, d, hf⟩
      · exact ih (i + d) cap h

theorem cls_of_takeWhile_longer (p : Char → Bool) :
    ∀ (a : List Char) (c : Char) (rest : List Char),
      a.length < ((a ++ c :: rest).takeWhile p).length → p c = true := by
  intro a
  induction a with
  | nil =>
    intro c rest h
    rw [List.nil_append] at h
    cases hp : p c
    · simp [List.takeWhile_cons, hp] at h
    · rfl
  | cons x a ih =>
    intro c rest h
    rw [List.cons_append] at h
    cases hp : p x
    · simp [List.takeWhile_cons, hp] at h
    · simp only [List.takeWhile_cons, hp, if_true, List.length_cons] at h
      exact ih c rest (by omega)

/-- The loop for the pattern `lit([cls]+)` never skips an occurrence: a
later occurrence starts at or after the end of the leftmost match. -/
def NoSkip (lit : List Char) (cls : Char → Bool) : Prop :=
  ∀ s u v u' v' : List Char, s = u ++ lit ++ v → headCls cls v = true →
    s = u' ++ lit ++ v' → headCls cls v' = true → u.length < u'.length →
    u.length + lit.length + (v.takeWhile cls).length ≤ u'.length

theorem noSkip_lit2 : NoSkip lit2 clsU := by
  intro s u v u' v' he hv he' hv' hlt
  have hs1 : s.take u.length = u := by
    rw [he, List.append_assoc]; exact List.take_left u _
  have hs2 : s.take u'.length = u' := by
    rw [he', List.append_assoc]; exact List.take_left u' _
  have htu : u'.take u.length = u := by
    rw [← hs2, List.take_take, Nat.min_eq_left (Nat.le_of_lt hlt)]
    exact hs1
  have hw : u ++ u'.drop u.length = u' := by
    have hz := List.take_append_drop u.length u'
    rw [htu] at hz
    exact hz
  have heq2 : lit2 ++ v = u'.drop u.length ++ (lit2 ++ v') := by
    have hx : u ++ (lit2 ++ v) = u ++ (u'.drop u.length ++ (lit2 ++ v')) := by
      rw [← List.append_assoc, ← he, he', ← hw]
      simp [List.append_assoc]
    exact List.append_cancel_left hx
  obtain ⟨w, hwd⟩ : ∃ w, u'.drop u.length = w := ⟨_, rfl⟩
  rw [hwd] at heq2
  have hwlen : u.length + w.length = u'.length := by
    rw [← hwd, List.length_drop]; omega
  have hl2 : lit2 = 'e' :: 'n' :: 'v' :: '.' :: [] := by decide
  have h4 : lit2.length = 4 := by decide
  rw [hl2] at heq2
  simp only [List.cons_append, List.nil_append] at heq2
  rcases w with _ | ⟨a, _ | ⟨b, _ | ⟨c, _ | ⟨d, w2⟩⟩⟩⟩
  · simp only [List.length_nil] at hwlen
    omega
  · injection heq2 with h1 h2
    injection h2 with h3 _
    exact absurd h3 (by decide)
  · injection heq2 with h1 h2
    injection h2 with h3 h5
    injection h5 with h6 _
    exact absurd h6 (by decide)
  · injection heq2 with h1 h2
    injection h2 with h3 h5
    injection h5 with h6 h7
    injection h7 with h8 _
    exact absurd h8 (by decide)
  · injection heq2 with h1 h2
    injection h2 with h3 h5
    injection h5 with h6 h7
    injection h7 with h8 h9
    have hveq : v = w2 ++ 'e' :: 'n' :: 'v' :: '.' :: v' := h9
    simp only [List.length_cons] at hwlen
    by_cases hcmp : (v.takeWhile clsU).length ≤ w2.length
    · omega
    · exfalso
      have hcls : clsU 'e' = true := by
        apply cls_of_takeWhile_longer clsU w2 'e' ('n' :: 'v' :: '.' :: v')
        rw [← hveq]
        omega
      exact absurd hcls (by decide)

theorem execLoop_findA_complete (lit : List Char) (cls : Char → Bool)
    (hns : NoSkip lit cls) (t : List Char) :
    ∀ fuel i u v, (t.drop i).length + 1 ≤ fuel → t.drop i = u ++ lit ++ v →
      headCls cls v = true →
      v.takeWhile cls ∈ (execLoop (findA lit cls) t fuel i).1 := by
  intro fuel
  induction fuel with
  | zero => intro i u v hf _ _; omega
  | succ m ih =>
    intro i u v hfuel heq hv
    have hvpos : 0 < v.length := by
      cases v with
      | nil => simp [headCls] at hv
      | cons a b => simp
    rcases hf : findA lit cls (t.drop i) with _ | ⟨cap₀, d⟩
    · exact (findA_none lit cls (t.drop i) hf u v heq hv).elim
    · obtain ⟨u₀, v₀, he₀, hv₀, hcap₀, hd, hmin⟩ :=
        findA_some lit cls (t.drop i) cap₀ d hf
      simp only [execLoop, hf, List.mem_cons]
      have hle : u₀.length ≤ u.length := hmin u v heq hv
      by_cases hu : u₀.length = u.length
      · left
        have h1 : u₀ = u := by
          have a1 : (t.drop i).take u₀.length = u₀ := by
            rw [he₀, List.append_assoc]; exact List.take_left u₀ _
          have a2 : (t.drop i).take u.length = u := by
            rw [heq, List.append_assoc]; exact List.take_left u _
          rw [← a1, ← a2, hu]
        rw [h1] at he₀
        have h2 : v₀ = v := by
          have hx : u ++ (lit ++ v₀) = u ++ (lit ++ v) := by
            rw [← List.append_assoc, ← he₀, heq, List.append_assoc]
          exact List.append_cancel_left (List.append_cancel_left hx)
        rw [hcap₀, h2]
      · right
        have hlt : u₀.length < u.length := lt_of_le_of_ne hle hu
        have hskip := hns (t.drop i) u₀ v₀ u v he₀ hv₀ heq hv hlt
        have hdle : d ≤ u.length := by rw [hd, hcap₀]; exact hskip
        have hdpos : 1 ≤ d := (bump_findA lit cls).2 _ _ _ hf
        have heq' : t.drop (i + d) = (u.drop d) ++ lit ++ v := by
          rw [← List.drop_drop, heq, List.append_assoc,
            List.drop_append_eq_append_drop, Nat.sub_eq_zero_of_le hdle,
            List.drop_zero, ← List.append_assoc]
        have hlen1 : 1 ≤ (t.drop i).length := by
          rw [heq]
          simp only [List.length_append]
          omega
        have hfuel' : (t.drop (i + d)).length + 1 ≤ m := by
          rw [List.length_drop] at hfuel hlen1 ⊢
          omega
        exact ih (i + d) (u.drop d) v hfuel' heq' hv

/-- C10: the first pattern is redundant — removing
`/process\.env\.([A-Z_]+)/g` from the pattern list leaves the candidate
set of `detectScreams` unchanged, because every name it captures is also
captured by `/env\.([A-Z_]+)/g`. -/
theorem first_pattern_redundant (t : List Char) (x : List Char) :
    x ∈ detect t ↔ x ∈ detectNoFirst t := by
  have hl : lit1 = "process.".toList ++ lit2 := by decide
  have hfull : detect t = fromInsertions
      ((((runPat (findA lit1 clsU) t 0).1 ++ ((runPat (findA lit2 clsU) t 0).1 ++
        ((runPat findP3 t 0).1 ++ ((runPat (findB clsU lit4) t 0).1 ++
        ((runPat (findA lit5 clsU) t 0).1 ++ []))))).filter
          (fun c : List Char => !c.isEmpty)).map jsUpper) := rfl
  have hnof : detectNoFirst t = fromInsertions
      ((((runPat (findA lit2 clsU) t 0).1 ++ ((runPat findP3 t 0).1 ++
        ((runPat (findB clsU lit4) t 0).1 ++
        ((runPat (findA lit5 clsU) t 0).1 ++ [])))).filter
          (fun c : List Char => !c.isEmpty)).map jsUpper) := rfl
  rw [hfull, hnof, mem_fromInsertions, mem_fromInsertions]
  constructor
  · intro hx
    obtain ⟨cap, hcap_mem, hxe⟩ := List.mem_map.mp hx
    obtain ⟨hin, hpred⟩ := List.mem_filter.mp hcap_mem
    apply List.mem_map.mpr
    refine ⟨cap, List.mem_filter.mpr ⟨?_, hpred⟩, hxe⟩
    rcases List.mem_append.mp hin with h1 | hrest
    · apply List.mem_append.mpr
      left
      obtain ⟨j, d, hf⟩ :=
        execLoop_caps_sound (findA lit1 clsU) t (t.length + 1) 0 cap h1
      obtain ⟨u, v, he, hv, hcap, _, _⟩ :=
        findA_some lit1 clsU (t.drop j) cap d hf
      have ht : t.drop 0 = ((t.take j ++ u) ++ "process.".toList) ++ lit2 ++ v := by
        rw [List.drop_zero]
        conv_lhs => rw [← List.take_append_drop j t, he, hl]
        simp [List.append_assoc]
      have hc := execLoop_findA_complete lit2 clsU noSkip_lit2 t (t.length + 1) 0
        ((t.take j ++ u) ++ "process.".toList) v
        (by rw [List.drop_zero]) ht hv
      rw [hcap]
      exact hc
    · exact hrest
  · intro hx
    obtain ⟨cap, hcap_mem, hxe⟩ := List.mem_map.mp hx
    obtain ⟨hin, hpred⟩ := List.mem_filter.mp hcap_mem
    exact List.mem_map.mpr
      ⟨cap, List.mem_filter.mpr ⟨List.mem_append.mpr (Or.inr hin), hpred⟩, hxe⟩

end EnvScream
